import Mathlib

/-!
Verification of the responsefun evaluate/sum-over-states layer.

This file gives a shallow embedding of the expression model
(`sum_over_states.py`) and of the evaluation pipeline
(`evaluate_property.py`) of the responsefun repository, and proves the
behavioural properties stated about them.

Modelling conventions:
* SymPy expressions are represented structurally: a product (`Mul`) is a
  list of factors, a sum (`Add`) is a list of products, a denominator
  factor `Pow(base, -1)` carries its base as a list of additive parts.
* Python floats are modelled as rationals; complex values as pairs of
  rationals (`CQ`).
* Python exceptions are modelled with `Except`; an exception raised in a
  statement sequence aborts the remainder of the sequence.
-/

namespace Responsefun

/-- Complex numbers with rational parts; the computable stand-in for the
numeric (possibly complex) values flowing through the pipeline. -/
structure CQ where
  re : ℚ
  im : ℚ
deriving DecidableEq

instance : Zero CQ := ⟨⟨0, 0⟩⟩

instance : Add CQ := ⟨fun a b => ⟨a.re + b.re, a.im + b.im⟩⟩

/-- Python exception kinds raised by the evaluate/sum-over-states layer. -/
inductive PyErr
  | typeError
  | valueError
  | zeroDivisionError
  | notImplementedError
deriving DecidableEq

/-- An additive part of a frequency-difference denominator (one element of
`denom.args` for an `Add` base in SymPy). `posIGamma` is the term
`1.0*gamma*I`, `negIGamma` is `-1.0*gamma*I`, `freq name neg` is a
(possibly negated) frequency symbol such as `w_n` or `-w_2`, and `num` is
a numeric shift. -/
inductive AddPart
  | posIGamma
  | negIGamma
  | freq (name : String) (neg : Bool)
  | num (q : ℚ)
deriving DecidableEq

/-- A factor of a SymPy product term in an SOS expression: `Bra`/`Ket`
states, `DipoleOperator` (comp string, op_type), `DipoleMoment`,
denominator factors `Pow(base, -1)`, the Levi-Civita symbol, or a numeric
prefactor. -/
inductive Factor
  | bra (label : String)
  | ket (label : String)
  | dipOp (comp : List Char) (opType : String)
  | dipMom (comp : List Char) (fromState toState : String) (opType : String)
  | powFac (base : List AddPart)
  | leviCivita
  | num (q : ℚ)
deriving DecidableEq

/-- A SymPy SOS expression: either a single product (`Mul`) or a sum of
products (`Add`). -/
inductive SosExpr
  | mul (factors : List Factor)
  | add (terms : List (List Factor))
deriving DecidableEq

/-- The structural identity of a `DipoleOperator`: its Cartesian component
string and its operator type. -/
abbrev OpId : Type := List Char × String

/-- A frequency token, `(name, negated)`: the entries of a `(op, freq)`
permutation pair, e.g. `-w_o` is `("w_o", true)`. -/
abbrev FreqTok : Type := String × Bool

/-- A permutation pair `(op, freq)` as passed in `perm_pairs`. -/
abbrev PermPair : Type := OpId × FreqTok

/-! ## Python keyword-argument binding

`SumOverStates.__init__` (sum_over_states.py line 79) declares the
keyword-only parameters `correlation_btw_freq`, `perm_pairs`,
`excluded_states`.  All three evaluate functions construct it passing the
keyword `excluded_cases` (evaluate_property.py lines 198-200, 520-522,
712-714).  Python binds keyword arguments before the callee body runs and
raises `TypeError` on an unexpected keyword. -/

/-- Keyword-only parameter names of `SumOverStates.__init__`. -/
def sum_over_states_keyword_params : List String :=
  ["correlation_btw_freq", "perm_pairs", "excluded_states"]

/-- Keyword names used at the `SumOverStates` call in
`evaluate_property_isr` (lines 198-200). -/
def isr_call_keywords : List String :=
  ["correlation_btw_freq", "perm_pairs", "excluded_cases"]

/-- Keyword names used at the `SumOverStates` call in
`evaluate_property_sos` (lines 520-522). -/
def sos_call_keywords : List String :=
  ["correlation_btw_freq", "perm_pairs", "excluded_cases"]

/-- Keyword names used at the `SumOverStates` call in
`evaluate_property_sos_fast` (lines 712-714). -/
def sos_fast_call_keywords : List String :=
  ["correlation_btw_freq", "perm_pairs", "excluded_cases"]

/-- Python's binding of keyword arguments to a callable: a keyword not
among the accepted parameter names raises `TypeError` before the callee
body executes. -/
def bindKeywords (accepted passed : List String) : Except PyErr Unit :=
  if passed.all (fun kw => accepted.contains kw) then .ok () else .error .typeError

/-! ## sum_over_states.py: `_build_sos_via_permutation` and `SumOverStates` -/

/-- Errors raised during `SumOverStates` construction:
`dipoleMomentTypeError` is the `TypeError` for a `DipoleMoment` factor in
the expression (lines 133-139, 152-158), `indexValueError` the
`ValueError` "Given indices of summation are not correct." (lines 144,
162), `componentValueError` the `ValueError` about the canonical
Cartesian component prefix (lines 167-171), `orderingValueError` the
`ValueError` raised by `_build_sos_via_permutation` for mis-ordered
`(op, freq)` pairs (lines 55-58), and `permAssertionError` the failing
`assert type(term) == Mul` (line 46) when permutation expansion is asked
of an `Add` expression. -/
inductive ConstrErr
  | dipoleMomentTypeError
  | indexValueError
  | componentValueError
  | orderingValueError
  | permAssertionError
deriving DecidableEq

/-- The canonical uppercase alphabet, `ABC = list(string.ascii_uppercase)`
(sum_over_states.py line 8). -/
def ABC : List Char := "ABCDEFGHIJKLMNOPQRSTUVWXYZ".toList

/-- The `DipoleOperator` factors of a product term, in order of occurrence
(`[op for op in term.args if isinstance(op, DipoleOperator)]`, lines
50-52). -/
def term_operators (fs : List Factor) : List OpId :=
  fs.filterMap fun f => match f with
    | .dipOp c t => some (c, t)
    | _ => none

/-- Operator substitution rules derived from `subs_list` (lines 65-68):
the j-th original operator is replaced by the j-th operator of the
permuted pair list. -/
def mkOpRules (orig perm : List PermPair) : List (OpId × OpId) :=
  (orig.zip perm).map fun pr => (pr.1.1, pr.2.1)

/-- Frequency substitution rules derived from `subs_list` (lines 65-68):
the j-th original frequency is replaced by the j-th frequency of the
permuted pair list. -/
def mkFreqRules (orig perm : List PermPair) : List (FreqTok × FreqTok) :=
  (orig.zip perm).map fun pr => (pr.1.2, pr.2.2)

/-- Simultaneous substitution on an additive denominator part: a frequency
symbol matched by a rule is replaced by the rule's right-hand side. -/
def substAddPart (freqRules : List (FreqTok × FreqTok)) : AddPart → AddPart
  | .freq n s =>
    match freqRules.find? (fun r => decide (r.1 = (n, s))) with
    | some r => .freq r.2.1 r.2.2
    | none => .freq n s
  | p => p

/-- Simultaneous substitution on a product factor, mirroring
`term.subs(subs_list, simultaneous=True)`: dipole operators are replaced
by the operator rules, frequency symbols inside denominators by the
frequency rules, and all other factors are left unchanged. -/
def substFactor (opRules : List (OpId × OpId)) (freqRules : List (FreqTok × FreqTok)) :
    Factor → Factor
  | .dipOp c t =>
    match opRules.find? (fun r => decide (r.1 = (c, t))) with
    | some r => .dipOp r.2.1 r.2.2
    | none => .dipOp c t
  | .powFac base => .powFac (base.map (substAddPart freqRules))
  | f => f

/-- The term obtained from `term` by the simultaneous substitution taking
the original pair list `orig` to its permutation `perm` (lines 64-69). -/
def subst_term (orig perm : List PermPair) (term : List Factor) : List Factor :=
  term.map (substFactor (mkOpRules orig perm) (mkFreqRules orig perm))

/-- `_build_sos_via_permutation(term, perm_pairs)` (lines 28-71): checks
that the `(op, freq)` pairs are listed in the same order as the operators
occur in the term (via `zip`, which truncates to the shorter list), then
sums the terms obtained by every simultaneous permutation substitution,
the first (identity) permutation contributing the input term itself.  The
resulting sum is represented by its list of additive terms. -/
def build_sos_via_permutation (term : List Factor) (permPairs : List PermPair) :
    Except ConstrErr (List (List Factor)) :=
  if ((term_operators term).zip permPairs).all (fun pr => decide (pr.1 = pr.2.1)) then
    .ok (term :: (permPairs.permutations.drop 1).map (fun p => subst_term permPairs p term))
  else .error .orderingValueError

/-- The `SumOverStates` object: the (possibly permutation-expanded)
expression together with the metadata extracted during construction. -/
structure SumOverStates where
  expr : SosExpr
  summationIndices : List String
  operators : List OpId
  components : List Char
  order : ℕ

/-- Operator/component collection for the `Add` branch of
`SumOverStates.__init__` (lines 124-139): scan all factors of all terms,
deduplicate operators, append each operator's component characters, and
raise `TypeError` on a `DipoleMoment` factor. -/
def collectOpsComps (ops : List OpId) (comps : List Char) :
    List Factor → Except ConstrErr (List OpId × List Char)
  | [] => .ok (ops, comps)
  | .dipOp c t :: rest =>
    if (c, t) ∈ ops then collectOpsComps ops comps rest
    else collectOpsComps (ops ++ [(c, t)]) (comps ++ c) rest
  | .dipMom _ _ _ _ :: _ => .error .dipoleMomentTypeError
  | _ :: rest => collectOpsComps ops comps rest

/-- Component collection for the `Mul` branch of `SumOverStates.__init__`
(lines 146-158): append each dipole operator's component characters
without deduplication, raising `TypeError` on a `DipoleMoment` factor. -/
def collectMulComps (comps : List Char) : List Factor → Except ConstrErr (List Char)
  | [] => .ok comps
  | .dipOp c _ :: rest => collectMulComps (comps ++ c) rest
  | .dipMom _ _ _ _ :: _ => .error .dipoleMomentTypeError
  | _ :: rest => collectMulComps comps rest

/-- The summation-index validation of the `Add` branch (lines 141-144):
every index must occur as a `Bra` and as a `Ket` factor in every additive
term. -/
def checkIndicesAdd (indices : List String) (terms : List (List Factor)) :
    Except ConstrErr Unit :=
  if indices.all (fun i => terms.all (fun t =>
      decide (Factor.bra i ∈ t ∧ Factor.ket i ∈ t))) then .ok ()
  else .error .indexValueError

/-- The summation-index validation of the `Mul` branch (lines 160-162):
every index must occur as a `Bra` and as a `Ket` factor of the product. -/
def checkIndicesMul (indices : List String) (fs : List Factor) : Except ConstrErr Unit :=
  if indices.all (fun i => decide (Factor.bra i ∈ fs ∧ Factor.ket i ∈ fs)) then .ok ()
  else .error .indexValueError

/-- `self._components.sort()` (lines 140, 159). -/
def componentSort (cs : List Char) : List Char :=
  List.insertionSort (fun a b => a ≤ b) cs

/-- The expression formed from the list of additive terms produced by
permutation expansion: a single term stays a `Mul`, several terms form an
`Add` (cf. the docstring of `_build_sos_via_permutation`). -/
def exprOfTerms (ts : List (List Factor)) : SosExpr :=
  match ts with
  | [t] => .mul t
  | ts => .add ts

/-- The operator/component collection stage of `SumOverStates.__init__`,
branching on `Add` (lines 124-139) vs `Mul` (lines 145-158). -/
def collectStage (expr : SosExpr) : Except ConstrErr (List OpId × List Char) :=
  match expr with
  | .add terms => collectOpsComps [] [] terms.flatten
  | .mul fs => (collectMulComps [] fs).map (fun comps => (term_operators fs, comps))

/-- The summation-index validation stage of `SumOverStates.__init__`
(lines 141-144 and 160-162). -/
def indexStage (expr : SosExpr) (indices : List String) : Except ConstrErr Unit :=
  match expr with
  | .add terms => checkIndicesAdd indices terms
  | .mul fs => checkIndicesMul indices fs

/-- The permutation-expansion step at the end of `SumOverStates.__init__`
(lines 176-179): `if perm_pairs:` is false for `None` and for the empty
list, leaving the expression unchanged; otherwise the expression must be
a `Mul` (the `assert` of `_build_sos_via_permutation`) and is replaced by
the generated sum. -/
def permExpand (expr : SosExpr) (permPairs : Option (List PermPair)) :
    Except ConstrErr SosExpr :=
  match permPairs with
  | none => .ok expr
  | some pairs =>
    if pairs.isEmpty then .ok expr
    else match expr with
      | .mul fs => (build_sos_via_permutation fs pairs).map exprOfTerms
      | .add _ => .error .permAssertionError

/-- `SumOverStates.__init__(expr, summation_indices, *, ..., perm_pairs,
...)` (sum_over_states.py lines 79-180): collect operators and component
labels (branching on `Add` vs `Mul`), validate the summation indices,
check the sorted component labels against the canonical alphabet prefix
of length `order = len(components)`, and finally expand the expression
via `_build_sos_via_permutation` when a non-empty `perm_pairs` list is
given (`if perm_pairs:` is false for `None` and for `[]`).  The final
`self.expr.doit()` is the identity on this structural representation. -/
def SumOverStates.init (expr : SosExpr) (summationIndices : List String)
    (permPairs : Option (List PermPair)) : Except ConstrErr SumOverStates := do
  let oc ← collectStage expr
  indexStage expr summationIndices
  let sortedComps := componentSort oc.2
  let order := sortedComps.length
  if sortedComps = ABC.take order then do
    let finalExpr ← permExpand expr permPairs
    .ok ⟨finalExpr, summationIndices, oc.1, sortedComps, order⟩
  else .error .componentValueError

/-! ## evaluate_property.py: `_check_omegas_and_final_state` -/

/-- Errors raised by `_check_omegas_and_final_state`: `realExprGamma` is
the `ValueError` "Although the entered SOS expression is real, a value for
gamma was specified." (line 72), `finalStateError` the `ValueError`
"A final state was mistakenly specified." (line 81). -/
inductive CheckErr
  | realExprGamma
  | finalStateError
deriving DecidableEq

/-- The flattened factor list of the expression (`arg_list`, lines 42-47):
for an `Add`, all factors of all terms; for a `Mul`, its factors. -/
def arg_list : SosExpr → List Factor
  | .add terms => terms.flatten
  | .mul fs => fs

/-- The denominator bases of the expression (`denom_list`, lines 44, 47):
the base of every `Pow` factor, as its list of additive parts. -/
def denom_list (e : SosExpr) : List (List AddPart) :=
  (arg_list e).filterMap fun f => match f with
    | .powFac base => some base
    | _ => none

/-- The gamma block of `_check_omegas_and_final_state` (lines 69-72):
`if gamma_val:` (Python truthiness, i.e. nonzero), raise unless every
denominator contains `1.0*gamma*I` or `-1.0*gamma*I` among its additive
parts. -/
def check_gamma_denoms (e : SosExpr) (gammaVal : ℚ) : Except CheckErr Unit :=
  if gammaVal ≠ 0 then
    if (denom_list e).all (fun d =>
        decide (AddPart.posIGamma ∈ d ∨ AddPart.negIGamma ∈ d)) then .ok ()
    else .error .realExprGamma
  else .ok ()

/-- The final-state block of `_check_omegas_and_final_state` (lines
74-81): if a final state is given, some factor must be the `Bra` or the
`Ket` of that state. -/
def check_final_state (e : SosExpr) (finalState : Option String) : Except CheckErr Unit :=
  match finalState with
  | none => .ok ()
  | some fs =>
    if (arg_list e).any (fun a => decide (a = .bra fs ∨ a = .ket fs)) then .ok ()
    else .error .finalStateError

/-- `_check_omegas_and_final_state(sos_expr, omegas, correlation_btw_freq,
gamma_val, final_state)` (evaluate_property.py lines 39-81).  The
frequency-consistency raises of the omegas block (lines 49-67) are
disabled in the source (commented out), so that block never fails; the
gamma block runs before the final-state block.  The function only reads
its arguments and mutates nothing, which this pure embedding reflects. -/
def check_omegas_and_final_state (sosExpr : SosExpr) (gammaVal : ℚ)
    (finalState : Option String) : Except CheckErr Unit := do
  check_gamma_denoms sosExpr gammaVal
  check_final_state sosExpr finalState

/-! ## evaluate_property.py: solve-request dispatch (lines 229-286)

After numeric substitution every response-equation key is
`(equation kind, operator type, omega, gamma, [target])`; the solver
adapter dispatches on the kind and, for `S2S_MTM` keys, on whether the
right-hand side comes from an already resolved response vector or from
the final-state excitation vector. -/

/-- The target discriminator `k[4]` of an `S2S_MTM` key: the
`ResponseVector` class (right-hand side built from an already resolved
response vector, line 249), the final-state symbol (line 267), or
anything else (line 282). -/
inductive S2SKind
  | rvec (no : ℕ)
  | finalState
  | unknown
deriving DecidableEq

/-- The equation kind `k[0]` of a solve key: `MTM` (line 231), `S2S_MTM`
(line 246), or an unrecognized kind (line 285). -/
inductive EqType
  | mtm
  | s2sMtm (target : S2SKind)
  | unknownEq
deriving DecidableEq

/-- A canonical solve-request key after numeric substitution of omegas and
gamma (lines 216-222): equation kind, operator type, numeric frequency
and numeric damping. -/
structure SolveKey where
  eq : EqType
  opType : String
  omega : ℚ
  gam : ℚ
deriving DecidableEq

/-- One dispatched call to the external linear-response solver:
`cplx` records whether the complex-valued solver variant was used
(right-hand side wrapped in `RV`), `comp` the Cartesian component tuple
of the request. -/
structure SolveCall where
  cplx : Bool
  comp : List (Fin 3)
deriving DecidableEq

/-- The three Cartesian axes. -/
def fin3range : List (Fin 3) := [0, 1, 2]

/-- `list(product([0, 1, 2], repeat=n))`: all Cartesian component tuples
of length `n` in lexicographic order. -/
def allTuples3 : ℕ → List (List (Fin 3))
  | 0 => [[]]
  | n + 1 => fin3range.flatMap (fun a => (allTuples3 n).map (fun c => a :: c))

/-- The solver-adapter dispatch for one resolved key (evaluate_property.py
lines 229-286).  `opDim` is the operator dimension, `rvecDim` the number
of axes of the already-resolved response-vector array feeding an
operator-product right-hand side.  An `MTM` key solves one equation per
component, real for zero damping and complex otherwise (lines 231-245).
An `S2S_MTM` key with a `ResponseVector` right-hand side solves real
equations for zero damping but raises `NotImplementedError` for nonzero
damping, before any solve is dispatched (lines 249-264); with the
final-state excitation vector it solves real or complex equations (lines
267-281); any other target, and any unknown equation kind, raises
`ValueError` "Unkown response equation." (lines 282-286). -/
def solve_response_equations (opDim rvecDim : ℕ) (k : SolveKey) :
    Except PyErr (List SolveCall) :=
  match k.eq with
  | .mtm =>
    if k.gam = 0 then .ok ((allTuples3 opDim).map (fun c => ⟨false, c⟩))
    else .ok ((allTuples3 opDim).map (fun c => ⟨true, c⟩))
  | .s2sMtm (.rvec _) =>
    if k.gam = 0 then .ok ((allTuples3 (opDim + rvecDim)).map (fun c => ⟨false, c⟩))
    else .error .notImplementedError
  | .s2sMtm .finalState =>
    if k.gam = 0 then .ok ((allTuples3 opDim).map (fun c => ⟨false, c⟩))
    else .ok ((allTuples3 opDim).map (fun c => ⟨true, c⟩))
  | .s2sMtm .unknown => .error .valueError
  | .unknownEq => .error .valueError

/-! ## evaluate_property.py: zoo check in the substitution paths -/

/-- The outcome of substituting all numeric values into one additive term:
either the SymPy complex-infinity sentinel `zoo` (a denominator vanished)
or a finite numeric value. -/
inductive SymVal
  | zoo
  | val (z : CQ)
deriving DecidableEq

/-- The per-component accumulation loop over the additive terms
(`evaluate_property_isr` lines 436-439, `evaluate_property_sos` lines
640-643): each substituted term result is tested against `zoo`, raising
`ZeroDivisionError` without accumulating it; otherwise it is added onto
the result-tensor cell. -/
def accumulate_terms (cell : CQ) : List SymVal → Except PyErr CQ
  | [] => .ok cell
  | .zoo :: _ => .error .zeroDivisionError
  | .val z :: rest => accumulate_terms (cell + z) rest

/-- The sum of the finite values in a list of substitution results. -/
def sumVals : List SymVal → CQ
  | [] => 0
  | .zoo :: rest => sumVals rest
  | .val z :: rest => z + sumVals rest

/-! ## evaluate_property.py: Einstein-summation divergence reconciliation
(lines 821-862) -/

/-- An (summation index, state number) pair: an entry of `divergences` or
`removed_divergences`. -/
abbrev DivCase : Type := String × ℕ

/-- The reconciliation loop (lines 844-850): each removed case is looked
up in the recorded divergences — a miss is the configuration
`ValueError`; a hit removes one occurrence from the working copy
`divergences_copied`. -/
def remove_divergences (divergences : List DivCase) :
    List DivCase → List DivCase → Except PyErr (List DivCase)
  | copied, [] => .ok copied
  | copied, rd :: rest =>
    if rd ∈ divergences then remove_divergences divergences (copied.erase rd) rest
    else .error .valueError

/-- The per-term divergence reconciliation of the Einstein-summation path
(lines 842-855): deduplicate the removed cases
(`list(set(removed_divergences))`), reconcile them against the recorded
divergences, and if divergences were recorded but not all were removed,
raise `ZeroDivisionError`. -/
def reconcile_divergences (removedRaw divergences : List DivCase) : Except PyErr Unit := do
  let removed := removedRaw.dedup
  let copied ← remove_divergences divergences divergences removed
  if divergences ≠ [] ∧ copied ≠ [] then throw .zeroDivisionError
  pure ()

/-- Reconciliation followed by the term's contribution to the result
tensor (lines 842-862): only when reconciliation succeeds is
`factor * np.einsum(...)` added onto `res_tens`. -/
def reconcile_and_accumulate (removedRaw divergences : List DivCase)
    (resTens contrib : CQ) : Except PyErr CQ := do
  reconcile_divergences removedRaw divergences
  pure (resTens + contrib)

/-! ## evaluate_property.py: result-tensor assembly -/

/-- The dtype of the result array: `float` unless a nonzero damping value
makes it `complex` (lines 293-295, 556-558, 729-731). -/
inductive Dtype
  | float
  | cplx
deriving DecidableEq

/-- The result tensor: a dense array carrying its numpy shape and dtype
and a total map from Cartesian index tuples to cell values. -/
structure ResTensor where
  shape : List ℕ
  dtype : Dtype
  data : List (Fin 3) → CQ

/-- `np.zeros((3,)*sos.order, dtype=dtype)` with
`dtype = float; if gamma_val != 0.0: dtype = complex` (lines 293-296). -/
def resTensInit (order : ℕ) (gammaVal : ℚ) : ResTensor :=
  { shape := List.replicate order 3
    dtype := if gammaVal ≠ 0 then Dtype.cplx else Dtype.float
    data := fun _ => 0 }

/-- A single cell assignment `res_tens[c] = v`: shape and dtype of the
array are untouched. -/
def writeCell (T : ResTensor) (c : List (Fin 3)) (v : CQ) : ResTensor :=
  { T with data := fun t => if t = c then v else T.data t }

/-- `list(combinations_with_replacement([0, 1, 2], n))` starting from a
lower bound: all non-decreasing component tuples with entries `≥ lo`. -/
def cwrFrom : Fin 3 → ℕ → List (List (Fin 3))
  | _, 0 => [[]]
  | lo, n + 1 =>
    (fin3range.filter (fun a => lo ≤ a)).flatMap
      (fun a => (cwrFrom a n).map (fun c => a :: c))

/-- `list(combinations_with_replacement([0, 1, 2], order))` (lines 304,
562): the non-decreasing Cartesian component tuples. -/
def cwr3 (order : ℕ) : List (List (Fin 3)) := cwrFrom 0 order

/-- The component tuples enumerated by the assembly loop (lines 303-306):
only the non-decreasing tuples when `symmetric=True`, otherwise all of
`{0,1,2}^order`. -/
def components_list (symmetric : Bool) (order : ℕ) : List (List (Fin 3)) :=
  if symmetric then cwr3 order else allTuples3 order

/-- The body of the component loop of `evaluate_property_isr` (lines
307-449) for one component tuple `c`: accumulate every additive term's
substituted value onto `res_tens[c]` (raising `ZeroDivisionError` on the
`zoo` sentinel), then, when `symmetric=True`, copy `res_tens[c]` to every
index permutation of `c` (lines 446-449).  `termValsAt c` lists the
substituted values of the additive terms at component `c`. -/
def processComponentIsr (symmetric : Bool) (termValsAt : List (Fin 3) → List SymVal)
    (res : ResTensor) (c : List (Fin 3)) : Except PyErr ResTensor := do
  let cellVal ← accumulate_terms (res.data c) (termValsAt c)
  let res1 := writeCell res c cellVal
  if symmetric then
    pure (c.permutations.foldl (fun r p => writeCell r p (r.data c)) res1)
  else
    pure res1

/-- The tensor-assembly stage of `evaluate_property_isr` (lines 293-450):
allocate the zero tensor of shape `(3,)*order` with the damping-dependent
dtype, then run the component loop over the enumerated component tuples,
returning the filled tensor. -/
def evaluate_property_isr_assembly (symmetric : Bool) (order : ℕ) (gammaVal : ℚ)
    (termValsAt : List (Fin 3) → List SymVal) : Except PyErr ResTensor :=
  (components_list symmetric order).foldlM (processComponentIsr symmetric termValsAt)
    (resTensInit order gammaVal)

/-- One whole-array contribution `res_tens += factor * np.einsum(...)` of
the Einstein-summation path (line 862): an elementwise addition that
leaves shape and dtype untouched. -/
def tensor_add_contrib (T : ResTensor) (contrib : List (Fin 3) → CQ) : ResTensor :=
  { T with data := fun t => T.data t + contrib t }

/-- The tensor-assembly stage of `evaluate_property_sos_fast` (lines
729-864): allocate the zero tensor of shape `(3,)*order` with the
damping-dependent dtype and add every term's contracted contribution. -/
def evaluate_property_sos_fast_assembly (order : ℕ) (gammaVal : ℚ)
    (contribs : List (List (Fin 3) → CQ)) : ResTensor :=
  contribs.foldl tensor_add_contrib (resTensInit order gammaVal)

/-! ## The public entry points

`construct_adcmatrix`, `to_isr`, `build_tree` and the linear-response
solver are external collaborators (spec sections 1 and 4.3); the numeric
assembly they feed is modelled by the dedicated definitions above.  The
models below cover each function up to and including its `SumOverStates`
construction and parameter-consistency check; the Python type assertions
on the arguments (lines 180-197) are subsumed by the Lean types. -/

/-- Error translation for exceptions escaping `SumOverStates.__init__`:
the `DipoleMoment` check raises `TypeError`, everything else
`ValueError` (the failing `assert` is folded into `ValueError` here for
brevity of the error alphabet). -/
def constrErrToPy : ConstrErr → PyErr
  | .dipoleMomentTypeError => .typeError
  | _ => .valueError

/-- Error translation for `_check_omegas_and_final_state`: both checks
raise `ValueError`. -/
def checkErrToPy : CheckErr → PyErr
  | _ => .valueError

/-- `evaluate_property_isr` (evaluate_property.py lines 130-450) up to
its parameter-consistency check.  Line 198 constructs `SumOverStates`
passing the keyword argument `excluded_cases`; Python binds the keywords
against the constructor's parameter list before anything else of the
construction runs. -/
def evaluate_property_isr (sosExpr : SosExpr) (summationIndices : List String)
    (omegas : List (String × ℚ)) (gammaVal : ℚ) (finalState : Option (String × ℕ))
    (permPairs : Option (List PermPair)) (symmetric : Bool)
    (excludedCases : Option (List DivCase)) : Except PyErr Unit := do
  let _ ← bindKeywords sum_over_states_keyword_params isr_call_keywords
  let sos ← (SumOverStates.init sosExpr summationIndices permPairs).mapError constrErrToPy
  let _ ← (check_omegas_and_final_state sos.expr gammaVal
      (finalState.map Prod.fst)).mapError checkErrToPy
  pure ()

/-- `evaluate_property_sos` (lines 453-648) up to its
parameter-consistency check; it constructs `SumOverStates` at lines
520-522 with the keyword argument `excluded_cases`. -/
def evaluate_property_sos (sosExpr : SosExpr) (summationIndices : List String)
    (omegas : List (String × ℚ)) (gammaVal : ℚ) (finalState : Option (String × ℕ))
    (permPairs : Option (List PermPair)) (symmetric : Bool)
    (excludedCases : Option (List DivCase)) : Except PyErr Unit := do
  let _ ← bindKeywords sum_over_states_keyword_params sos_call_keywords
  let sos ← (SumOverStates.init sosExpr summationIndices permPairs).mapError constrErrToPy
  let _ ← (check_omegas_and_final_state sos.expr gammaVal
      (finalState.map Prod.fst)).mapError checkErrToPy
  pure ()

/-- `evaluate_property_sos_fast` (lines 651-864) up to its
parameter-consistency check; it constructs `SumOverStates` at lines
712-714 with the keyword argument `excluded_cases`. -/
def evaluate_property_sos_fast (sosExpr : SosExpr) (summationIndices : List String)
    (omegas : List (String × ℚ)) (gammaVal : ℚ) (finalState : Option (String × ℕ))
    (permPairs : Option (List PermPair))
    (excludedCases : Option (List DivCase)) : Except PyErr Unit := do
  let _ ← bindKeywords sum_over_states_keyword_params sos_fast_call_keywords
  let sos ← (SumOverStates.init sosExpr summationIndices permPairs).mapError constrErrToPy
  let _ ← (check_omegas_and_final_state sos.expr gammaVal
      (finalState.map Prod.fst)).mapError checkErrToPy
  pure ()

/-! ## Specification-side predicates and pure collectors -/

/-- Whether a factor is a `DipoleMoment` instance. -/
def isDipMom : Factor → Bool
  | .dipMom _ _ _ _ => true
  | _ => false

/-- The expression contains no `DipoleMoment` factor (the precondition
under which `SumOverStates` construction reaches its index and component
validations instead of raising the `DipoleMoment` `TypeError`). -/
def noDipoleMoment (e : SosExpr) : Prop :=
  ∀ f ∈ arg_list e, isDipMom f = false

instance (e : SosExpr) : Decidable (noDipoleMoment e) :=
  inferInstanceAs (Decidable (∀ f ∈ arg_list e, isDipMom f = false))

/-- Every summation index occurs as both a `Bra` and a `Ket` factor in
every additive term (in the whole product, for a `Mul` expression). -/
def indicesOk (e : SosExpr) (indices : List String) : Prop :=
  match e with
  | .add terms => ∀ i ∈ indices, ∀ t ∈ terms, Factor.bra i ∈ t ∧ Factor.ket i ∈ t
  | .mul fs => ∀ i ∈ indices, Factor.bra i ∈ fs ∧ Factor.ket i ∈ fs

instance (e : SosExpr) (indices : List String) : Decidable (indicesOk e indices) := by
  unfold indicesOk
  cases e <;> infer_instance

/-- The error-free core of `collectOpsComps`: the operator/component
collection of the `Add` branch, ignoring the `DipoleMoment` factors that
would raise. -/
def collectOpsCompsPure (ops : List OpId) (comps : List Char) :
    List Factor → List OpId × List Char
  | [] => (ops, comps)
  | .dipOp c t :: rest =>
    if (c, t) ∈ ops then collectOpsCompsPure ops comps rest
    else collectOpsCompsPure (ops ++ [(c, t)]) (comps ++ c) rest
  | _ :: rest => collectOpsCompsPure ops comps rest

/-- The error-free core of `collectMulComps`. -/
def collectMulCompsPure (comps : List Char) : List Factor → List Char
  | [] => comps
  | .dipOp c _ :: rest => collectMulCompsPure (comps ++ c) rest
  | _ :: rest => collectMulCompsPure comps rest

/-- The Cartesian component labels collected from the expression's dipole
operators during `SumOverStates` construction (with multiplicity, and
deduplicated per distinct operator in the `Add` branch). -/
def componentsOf : SosExpr → List Char
  | .add terms => (collectOpsCompsPure [] [] terms.flatten).2
  | .mul fs => collectMulCompsPure [] fs

/-- The operator list collected during `SumOverStates` construction. -/
def operatorsOf : SosExpr → List OpId
  | .add terms => (collectOpsCompsPure [] [] terms.flatten).1
  | .mul fs => term_operators fs

/-- The cell map of an assembly outcome: the data of the tensor on
success, the zero map on an aborted evaluation (which returns nothing). -/
def exceptData (e : Except PyErr ResTensor) (t : List (Fin 3)) : CQ :=
  match e with
  | .ok r => r.data t
  | .error _ => 0

/-- A concrete alpha-like SOS term used as a test input:
`Bra(O)*op_a*Ket(n) * Bra(n)*op_b*Ket(O) / (w_n - w)`. -/
def alphaTerm : List Factor :=
  [.bra "0", .dipOp ['A'] "electric", .ket "n", .bra "n", .dipOp ['B'] "electric",
   .ket "0", .powFac [.freq "w_n" false, .freq "w" true]]

/-- Concrete `(op, freq)` pairs matching `alphaTerm`'s operator order. -/
def alphaPairs : List PermPair :=
  [((['A'], "electric"), ("w_1", false)), ((['B'], "electric"), ("w_2", false))]

/-- The shape of an assembly outcome (empty on an aborted evaluation). -/
def exceptShape (e : Except PyErr ResTensor) : List ℕ :=
  match e with
  | .ok r => r.shape
  | .error _ => []

/-- The dtype of an assembly outcome (`float` on an aborted evaluation). -/
def exceptDtype (e : Except PyErr ResTensor) : Dtype :=
  match e with
  | .ok r => r.dtype
  | .error _ => .float

/-! # Theorems -/

theorem CQ.zero_re : (0 : CQ).re = 0 := rfl

theorem CQ.zero_im : (0 : CQ).im = 0 := rfl

theorem CQ.add_def (a b : CQ) : a + b = ⟨a.re + b.re, a.im + b.im⟩ := rfl

theorem CQ.addAssoc (a b c : CQ) : a + b + c = a + (b + c) := by
  simp only [CQ.add_def]
  exact congrArg₂ CQ.mk (by ring) (by ring)

theorem CQ.add_zero (a : CQ) : a + 0 = a := by
  cases a; simp [CQ.add_def, CQ.zero_re, CQ.zero_im]

theorem CQ.zero_add (a : CQ) : (0 : CQ) + a = a := by
  cases a; simp [CQ.add_def, CQ.zero_re, CQ.zero_im]

theorem exceptBind_ok {ε α β : Type} (a : α) (f : α → Except ε β) :
    (Except.ok a >>= f) = f a := rfl

theorem exceptBind_err {ε α β : Type} (e : ε) (f : α → Except ε β) :
    ((Except.error e : Except ε α) >>= f) = .error e := rfl

/-! ## Accumulation with the zoo check (C6) -/

theorem accumulate_terms_of_not_mem_zoo (vals : List SymVal) :
    ∀ cell : CQ, SymVal.zoo ∉ vals →
      accumulate_terms cell vals = .ok (cell + sumVals vals) := by
  induction vals with
  | nil => intro cell _; simp [accumulate_terms, sumVals, CQ.add_zero]
  | cons v rest ih =>
    intro cell h
    match v with
    | .zoo => exact absurd (List.mem_cons_self _ _) h
    | .val z =>
      simp only [accumulate_terms, sumVals]
      rw [ih (cell + z) (fun hm => h (List.mem_cons_of_mem _ hm)), CQ.addAssoc]

theorem accumulate_terms_of_mem_zoo (vals : List SymVal) :
    ∀ cell : CQ, SymVal.zoo ∈ vals →
      accumulate_terms cell vals = .error .zeroDivisionError := by
  induction vals with
  | nil => intro cell h; cases h
  | cons v rest ih =>
    intro cell h
    match v with
    | .zoo => rfl
    | .val z =>
      have hr : SymVal.zoo ∈ rest := by
        rcases List.mem_cons.mp h with h1 | h1
        · cases h1
        · exact h1
      simpa [accumulate_terms] using ih (cell + z) hr

/-- C6: in the symbolic-substitution assembly paths, for every component
tuple and list of substituted term results, the accumulation raises
`ZeroDivisionError` exactly when some term evaluated to the
complex-infinity sentinel `zoo` (the value is then never accumulated into
the result tensor, the evaluation aborts); if no term evaluates to the
sentinel, every term's value is accumulated onto the cell. -/
theorem zoo_sentinel_division_error (cell : CQ) (vals : List SymVal) :
    (accumulate_terms cell vals = .error .zeroDivisionError ↔ SymVal.zoo ∈ vals) ∧
    (SymVal.zoo ∉ vals → accumulate_terms cell vals = .ok (cell + sumVals vals)) := by
  refine ⟨⟨fun h => ?_, accumulate_terms_of_mem_zoo vals cell⟩,
    accumulate_terms_of_not_mem_zoo vals cell⟩
  by_contra hz
  rw [accumulate_terms_of_not_mem_zoo vals cell hz] at h
  cases h

/-- Witness for C6 at a concrete input: two finite term values, no zoo,
accumulated onto an empty cell. -/
theorem zoo_sentinel_division_error_witness :
    SymVal.zoo ∉ [SymVal.val ⟨1, 0⟩, SymVal.val ⟨2, 0⟩] ∧
    accumulate_terms 0 [SymVal.val ⟨1, 0⟩, SymVal.val ⟨2, 0⟩] =
      .ok (0 + sumVals [SymVal.val ⟨1, 0⟩, SymVal.val ⟨2, 0⟩]) :=
  ⟨by decide, (zoo_sentinel_division_error 0 _).2 (by decide)⟩

/-! ## Solve-request dispatch (C7) -/

/-- C7: an operator-product solve request (`S2S_MTM` with a right-hand
side built from an already-resolved response vector) whose numeric
damping is nonzero raises `NotImplementedError`; no solve is dispatched
and no numeric output is produced for it. -/
theorem s2s_complex_rhs_not_implemented (opDim rvecDim : ℕ) (k : SolveKey) (no : ℕ)
    (hk : k.eq = .s2sMtm (.rvec no)) (hg : k.gam ≠ 0) :
    solve_response_equations opDim rvecDim k = .error .notImplementedError := by
  unfold solve_response_equations
  rw [hk]
  simp [hg]

/-- Witness for C7 at a concrete solve key. -/
theorem s2s_complex_rhs_not_implemented_witness :
    (SolveKey.mk (.s2sMtm (.rvec 0)) "electric" (1/2) (1/100)).eq =
        .s2sMtm (.rvec 0) ∧
    (SolveKey.mk (.s2sMtm (.rvec 0)) "electric" (1/2) (1/100)).gam ≠ 0 ∧
    solve_response_equations 1 2 ⟨.s2sMtm (.rvec 0), "electric", 1/2, 1/100⟩ =
      .error .notImplementedError :=
  ⟨rfl, by norm_num, s2s_complex_rhs_not_implemented 1 2 _ 0 rfl (by norm_num)⟩

/-! ## Parameter-consistency check (C4) -/

theorem denoms_all_iff (e : SosExpr) :
    ((denom_list e).all fun d =>
        decide (AddPart.posIGamma ∈ d ∨ AddPart.negIGamma ∈ d)) = true ↔
      ∀ d ∈ denom_list e, AddPart.posIGamma ∈ d ∨ AddPart.negIGamma ∈ d := by
  simp [List.all_eq_true]

/-- C4: for every expression and nonzero damping value, the parameter
consistency check raises the "Although the entered SOS expression is
real, a value for gamma was specified." domain error exactly when some
frequency-difference denominator of the expression contains neither
`1.0*gamma*I` nor `-1.0*gamma*I` among its additive parts; when every
denominator contains such a damping term the check passes this
validation (the embedding is a pure function, so the check mutates no
state). -/
theorem check_final_state_ne_realExprGamma (e : SosExpr) (fs : Option String) :
    check_final_state e fs ≠ .error .realExprGamma := by
  cases fs with
  | none => intro h; cases h
  | some s =>
    simp only [check_final_state]
    by_cases hb : ((arg_list e).any fun a =>
        decide (a = Factor.bra s ∨ a = Factor.ket s)) = true
    · rw [if_pos hb]; intro h; cases h
    · rw [if_neg hb]; intro h; cases h

theorem check_omegas_eq_bind (e : SosExpr) (γ : ℚ) (fs : Option String) :
    check_omegas_and_final_state e γ fs =
      (check_gamma_denoms e γ >>= fun _ => check_final_state e fs) := rfl

theorem gamma_real_expression_check (e : SosExpr) (γ : ℚ) (fs : Option String)
    (hγ : γ ≠ 0) :
    (check_omegas_and_final_state e γ fs = .error .realExprGamma ↔
      ∃ d ∈ denom_list e, AddPart.posIGamma ∉ d ∧ AddPart.negIGamma ∉ d) ∧
    ((∀ d ∈ denom_list e, AddPart.posIGamma ∈ d ∨ AddPart.negIGamma ∈ d) →
      check_omegas_and_final_state e γ fs ≠ .error .realExprGamma) := by
  rw [check_omegas_eq_bind]
  by_cases hall : ∀ d ∈ denom_list e, AddPart.posIGamma ∈ d ∨ AddPart.negIGamma ∈ d
  · have hγok : check_gamma_denoms e γ = .ok () := by
      unfold check_gamma_denoms
      rw [if_pos hγ, if_pos ((denoms_all_iff e).mpr hall)]
    rw [hγok, exceptBind_ok]
    constructor
    · constructor
      · intro h; exact absurd h (check_final_state_ne_realExprGamma e fs)
      · rintro ⟨d, hd, hp, hn⟩
        exact absurd (hall d hd) (by simp [hp, hn])
    · intro _; exact check_final_state_ne_realExprGamma e fs
  · have hex : ∃ d ∈ denom_list e, AddPart.posIGamma ∉ d ∧ AddPart.negIGamma ∉ d := by
      push_neg at hall
      obtain ⟨d, hd, hdm⟩ := hall
      exact ⟨d, hd, by tauto⟩
    have hγerr : check_gamma_denoms e γ = .error .realExprGamma := by
      unfold check_gamma_denoms
      have hfalse : ¬ (((denom_list e).all fun d =>
          decide (AddPart.posIGamma ∈ d ∨ AddPart.negIGamma ∈ d)) = true) := by
        intro hc
        exact hall ((denoms_all_iff e).mp hc)
      rw [if_pos hγ, if_neg hfalse]
    rw [hγerr, exceptBind_err]
    exact ⟨⟨fun _ => hex, fun _ => rfl⟩, fun h => absurd h hall⟩

/-- Witness for C4 at a concrete input: a real alpha-like denominator
`w_n - w` with damping `1/100`. -/
theorem gamma_real_expression_check_witness :
    (1 : ℚ) / 100 ≠ 0 ∧
    check_omegas_and_final_state
        (.mul [.bra "0", .dipOp ['A'] "electric", .ket "n",
               .powFac [.freq "w_n" false, .freq "w" true]])
        (1 / 100) none = .error .realExprGamma :=
  ⟨by norm_num,
    (gamma_real_expression_check _ _ none (by norm_num)).1.mpr
      ⟨[.freq "w_n" false, .freq "w" true], by decide, by decide⟩⟩

/-! ## Einstein-summation divergence reconciliation (C5) -/

theorem remove_divergences_of_all_mem (divs : List DivCase) (removed : List DivCase) :
    ∀ copied, (∀ c ∈ removed, c ∈ divs) →
      remove_divergences divs copied removed = .ok (removed.foldl List.erase copied) := by
  induction removed with
  | nil => intro copied _; rfl
  | cons rd rest ih =>
    intro copied h
    have hrd : rd ∈ divs := h rd (List.mem_cons_self _ _)
    simp only [remove_divergences, if_pos hrd, List.foldl_cons]
    exact ih (copied.erase rd) (fun c hc => h c (List.mem_cons_of_mem _ hc))

theorem remove_divergences_of_exists_not_mem (divs removed : List DivCase) :
    ∀ copied, (∃ c ∈ removed, c ∉ divs) →
      remove_divergences divs copied removed = .error .valueError := by
  induction removed with
  | nil => rintro copied ⟨c, hc, _⟩; cases hc
  | cons rd rest ih =>
    intro copied h
    by_cases hrd : rd ∈ divs
    · obtain ⟨c, hc, hcd⟩ := h
      rcases List.mem_cons.mp hc with h1 | h1
      · exact absurd hrd (h1 ▸ hcd)
      · simp only [remove_divergences, if_pos hrd]
        exact ih (copied.erase rd) ⟨c, h1, hcd⟩
    · simp only [remove_divergences, if_neg hrd]

theorem reconcile_and_accumulate_eq (removed divs : List DivCase) (res contrib : CQ) :
    reconcile_and_accumulate removed divs res contrib =
      match remove_divergences divs divs removed.dedup with
      | .error e => .error e
      | .ok copied =>
        if divs ≠ [] ∧ copied ≠ [] then .error .zeroDivisionError
        else .ok (res + contrib) := by
  unfold reconcile_and_accumulate reconcile_divergences
  cases h : remove_divergences divs divs removed.dedup with
  | error e => simp [h, exceptBind_err]
  | ok copied =>
    by_cases hc : divs ≠ [] ∧ copied ≠ []
    · simp [h, hc, exceptBind_ok, throw, throwThe, MonadExceptOf.throw, exceptBind_err]
    · simp [h, hc, exceptBind_ok, pure, Except.pure]

/-- C5: in the Einstein-summation path, the removed excluded cases must
correspond one-to-one to the recorded divergences: a removed case that is
not among the recorded divergences raises the configuration `ValueError`;
with all removed cases recorded, leaving some recorded divergence
unremoved raises `ZeroDivisionError`; only when the reconciliation leaves
no remaining divergence is the term's contracted contribution added onto
the result tensor. -/
theorem einsum_divergence_reconciliation (removed divs : List DivCase)
    (res contrib : CQ) :
    (reconcile_and_accumulate removed divs res contrib = .error .valueError ↔
      ∃ c ∈ removed, c ∉ divs) ∧
    ((∀ c ∈ removed, c ∈ divs) →
      (reconcile_and_accumulate removed divs res contrib = .error .zeroDivisionError ↔
        divs ≠ [] ∧ removed.dedup.foldl List.erase divs ≠ []) ∧
      ((divs = [] ∨ removed.dedup.foldl List.erase divs = []) →
        reconcile_and_accumulate removed divs res contrib = .ok (res + contrib))) := by
  by_cases hall : ∀ c ∈ removed, c ∈ divs
  · have hdd : ∀ c ∈ removed.dedup, c ∈ divs :=
      fun c hc => hall c (List.mem_dedup.mp hc)
    have hE : reconcile_and_accumulate removed divs res contrib =
        if divs ≠ [] ∧ removed.dedup.foldl List.erase divs ≠ [] then
          (.error .zeroDivisionError : Except PyErr CQ)
        else .ok (res + contrib) := by
      rw [reconcile_and_accumulate_eq,
        remove_divergences_of_all_mem divs removed.dedup divs hdd]
    refine ⟨?_, fun _ => ⟨?_, ?_⟩⟩
    · rw [hE]
      constructor
      · intro h
        by_cases hc : divs ≠ [] ∧ removed.dedup.foldl List.erase divs ≠ []
        · rw [if_pos hc] at h; cases h
        · rw [if_neg hc] at h; cases h
      · rintro ⟨c, hc1, hc2⟩; exact absurd (hall c hc1) hc2
    · rw [hE]
      by_cases hc : divs ≠ [] ∧ removed.dedup.foldl List.erase divs ≠ []
      · rw [if_pos hc]
        exact ⟨fun _ => hc, fun _ => rfl⟩
      · rw [if_neg hc]
        constructor
        · intro h; cases h
        · intro h; exact absurd h hc
    · intro h
      rw [hE, if_neg (fun hc => by rcases h with h | h <;> simp [h] at hc)]
  · push_neg at hall
    obtain ⟨c, hc1, hc2⟩ := hall
    have hex : ∃ c ∈ removed.dedup, c ∉ divs := ⟨c, List.mem_dedup.mpr hc1, hc2⟩
    have hE : reconcile_and_accumulate removed divs res contrib =
        .error .valueError := by
      rw [reconcile_and_accumulate_eq,
        remove_divergences_of_exists_not_mem divs removed.dedup divs hex]
    rw [hE]
    refine ⟨⟨fun _ => ⟨c, hc1, hc2⟩, fun _ => rfl⟩, fun h => absurd (h c hc1) hc2⟩

/-! ## Permutation expansion (C3) -/

theorem zip_all_eq_true_iff (l : List OpId) (m : List PermPair) :
    ((l.zip m).all fun pr => decide (pr.1 = pr.2.1)) = true ↔
      ∀ (j : ℕ) (h1 : j < l.length) (h2 : j < m.length),
        l.get ⟨j, h1⟩ = (m.get ⟨j, h2⟩).1 := by
  induction l generalizing m with
  | nil =>
    constructor
    · intro _ j h1 _; exact absurd h1 (Nat.not_lt_zero j)
    · intro _; rfl
  | cons a l' ih =>
    cases m with
    | nil =>
      constructor
      · intro _ j _ h2; exact absurd h2 (Nat.not_lt_zero j)
      · intro _; rfl
    | cons b m' =>
      simp only [List.zip_cons_cons, List.all_cons, Bool.and_eq_true, decide_eq_true_eq,
        ih]
      constructor
      · rintro ⟨h0, hrest⟩ j h1 h2
        cases j with
        | zero => exact h0
        | succ j => exact hrest j (Nat.lt_of_succ_lt_succ h1) (Nat.lt_of_succ_lt_succ h2)
      · intro h
        exact ⟨h 0 (Nat.succ_pos _) (Nat.succ_pos _),
          fun j h1 h2 => h (j + 1) (Nat.succ_lt_succ h1) (Nat.succ_lt_succ h2)⟩

theorem zip_self_eq {α : Type} (l : List α) : l.zip l = l.map (fun x => (x, x)) := by
  induction l with
  | nil => rfl
  | cons a l ih => simp [List.zip_cons_cons, ih]

theorem mkOpRules_self (pairs : List PermPair) : ∀ r ∈ mkOpRules pairs pairs, r.2 = r.1 := by
  intro r hr
  unfold mkOpRules at hr
  rw [zip_self_eq, List.map_map] at hr
  obtain ⟨x, _, hx⟩ := List.mem_map.mp hr
  rw [← hx]
  rfl

theorem mkFreqRules_self (pairs : List PermPair) :
    ∀ r ∈ mkFreqRules pairs pairs, r.2 = r.1 := by
  intro r hr
  unfold mkFreqRules at hr
  rw [zip_self_eq, List.map_map] at hr
  obtain ⟨x, _, hx⟩ := List.mem_map.mp hr
  rw [← hx]
  rfl

theorem substAddPart_id (freqRules : List (FreqTok × FreqTok))
    (h : ∀ r ∈ freqRules, r.2 = r.1) (p : AddPart) : substAddPart freqRules p = p := by
  cases p with
  | freq n s =>
    simp only [substAddPart]
    cases hf : freqRules.find? (fun r => decide (r.1 = (n, s))) with
    | none => rfl
    | some r =>
      have hr1 : r.1 = (n, s) := by simpa using List.find?_some hf
      have hr2 : r.2 = r.1 := h r (List.mem_of_find?_eq_some hf)
      show AddPart.freq r.2.1 r.2.2 = AddPart.freq n s
      rw [hr2, hr1]
  | posIGamma => rfl
  | negIGamma => rfl
  | num q => rfl

theorem substFactor_id (opRules : List (OpId × OpId))
    (freqRules : List (FreqTok × FreqTok)) (ho : ∀ r ∈ opRules, r.2 = r.1)
    (hf : ∀ r ∈ freqRules, r.2 = r.1) (f : Factor) :
    substFactor opRules freqRules f = f := by
  cases f with
  | dipOp c t =>
    simp only [substFactor]
    cases hr : opRules.find? (fun r => decide (r.1 = (c, t))) with
    | none => rfl
    | some r =>
      have hr1 : r.1 = (c, t) := by simpa using List.find?_some hr
      have hr2 : r.2 = r.1 := ho r (List.mem_of_find?_eq_some hr)
      show Factor.dipOp r.2.1 r.2.2 = Factor.dipOp c t
      rw [hr2, hr1]
  | powFac base =>
    simp only [substFactor]
    have hid : base.map (substAddPart freqRules) = base := by
      calc base.map (substAddPart freqRules)
          = base.map id := List.map_congr_left (fun a _ => substAddPart_id freqRules hf a)
        _ = base := List.map_id base
    rw [hid]
  | bra l => rfl
  | ket l => rfl
  | dipMom c a b t => rfl
  | leviCivita => rfl
  | num q => rfl

theorem subst_term_self (pairs : List PermPair) (term : List Factor) :
    subst_term pairs pairs term = term := by
  unfold subst_term
  calc term.map (substFactor (mkOpRules pairs pairs) (mkFreqRules pairs pairs))
      = term.map id := List.map_congr_left
        (fun f _ => substFactor_id _ _ (mkOpRules_self pairs) (mkFreqRules_self pairs) f)
    _ = term := List.map_id term

/-- C3: `_build_sos_via_permutation` raises the ordering `ValueError`
exactly when, within the first `min(k, number of operators)` positions,
some j-th dipole operator of the term differs from the operator of the
j-th `(op, freq)` pair; otherwise it returns the sum of the `k!` terms
obtained by applying every simultaneous (operator and paired frequency)
permutation substitution of the pair list to the input term, the identity
permutation contributing the input term itself. -/
theorem build_sos_via_permutation_spec (term : List Factor) (pairs : List PermPair) :
    (build_sos_via_permutation term pairs = .error .orderingValueError ↔
      ∃ (j : ℕ) (h1 : j < (term_operators term).length) (h2 : j < pairs.length),
        (term_operators term).get ⟨j, h1⟩ ≠ (pairs.get ⟨j, h2⟩).1) ∧
    ((∀ (j : ℕ) (h1 : j < (term_operators term).length) (h2 : j < pairs.length),
        (term_operators term).get ⟨j, h1⟩ = (pairs.get ⟨j, h2⟩).1) →
      build_sos_via_permutation term pairs =
        .ok (pairs.permutations.map (fun p => subst_term pairs p term)) ∧
      (pairs.permutations.map (fun p => subst_term pairs p term)).head? = some term ∧
      (pairs.permutations.map (fun p => subst_term pairs p term)).length =
        Nat.factorial pairs.length) := by
  have hperm : pairs.permutations = pairs :: pairs.permutationsAux [] := rfl
  constructor
  · constructor
    · intro h
      by_contra hex
      push_neg at hex
      have hall : (((term_operators term).zip pairs).all
          fun pr => decide (pr.1 = pr.2.1)) = true :=
        (zip_all_eq_true_iff _ _).mpr hex
      unfold build_sos_via_permutation at h
      rw [if_pos hall] at h
      cases h
    · rintro ⟨j, h1, h2, hne⟩
      have hall : ¬ ((((term_operators term).zip pairs).all
          fun pr => decide (pr.1 = pr.2.1)) = true) :=
        fun hc => hne ((zip_all_eq_true_iff _ _).mp hc j h1 h2)
      unfold build_sos_via_permutation
      rw [if_neg hall]
  · intro h
    have hall : (((term_operators term).zip pairs).all
        fun pr => decide (pr.1 = pr.2.1)) = true := (zip_all_eq_true_iff _ _).mpr h
    refine ⟨?_, ?_, ?_⟩
    · unfold build_sos_via_permutation
      rw [if_pos hall, hperm]
      simp [subst_term_self]
    · rw [hperm]
      simp [subst_term_self]
    · rw [List.length_map, List.length_permutations]

/-- Witness for C3 at a concrete alpha-like term with correctly ordered
pairs: the expansion succeeds and equals the permutation sum. -/
theorem build_sos_via_permutation_spec_witness :
    (∀ (j : ℕ) (h1 : j < (term_operators alphaTerm).length)
        (h2 : j < alphaPairs.length),
        (term_operators alphaTerm).get ⟨j, h1⟩ = (alphaPairs.get ⟨j, h2⟩).1) ∧
    build_sos_via_permutation alphaTerm alphaPairs =
      .ok (alphaPairs.permutations.map (fun p => subst_term alphaPairs p alphaTerm)) := by
  have h : ∀ (j : ℕ) (h1 : j < (term_operators alphaTerm).length)
      (h2 : j < alphaPairs.length),
      (term_operators alphaTerm).get ⟨j, h1⟩ = (alphaPairs.get ⟨j, h2⟩).1 := by
    intro j h1 h2
    match j with
    | 0 => rfl
    | 1 => rfl
    | n + 2 =>
      have hlt : n + 2 < 2 := h2
      omega
  exact ⟨h, ((build_sos_via_permutation_spec alphaTerm alphaPairs).2 h).1⟩

/-- Witness for C5 at a concrete input: one recorded divergence, removed
exactly once, so the contribution is accumulated. -/
theorem einsum_divergence_reconciliation_witness :
    (∀ c ∈ [(("n", 0) : DivCase)], c ∈ [(("n", 0) : DivCase)]) ∧
    ([(("n", 0) : DivCase)] = [] ∨
      [(("n", 0) : DivCase)].dedup.foldl List.erase [(("n", 0) : DivCase)] = []) ∧
    reconcile_and_accumulate [("n", 0)] [("n", 0)] ⟨1, 0⟩ ⟨2, 0⟩ =
      .ok (⟨1, 0⟩ + ⟨2, 0⟩) := by
  refine ⟨by decide, by decide, ?_⟩
  exact ((einsum_divergence_reconciliation [("n", 0)] [("n", 0)] ⟨1, 0⟩ ⟨2, 0⟩).2
    (by decide)).2 (by decide)

/-- C1: every call to `evaluate_property_isr`, `evaluate_property_sos` or
`evaluate_property_sos_fast`, regardless of argument values (including
`excluded_cases=None`), invokes the `SumOverStates` construction with the
keyword argument `excluded_cases`, which is not among the constructor's
keyword-only parameters (`correlation_btw_freq`, `perm_pairs`,
`excluded_states`); hence every such call raises `TypeError` before any
expression validation, solving or tensor assembly takes place. -/
theorem excluded_cases_keyword_always_type_error (sosExpr : SosExpr)
    (summationIndices : List String) (omegas : List (String × ℚ)) (gammaVal : ℚ)
    (finalState : Option (String × ℕ)) (permPairs : Option (List PermPair))
    (symmetric : Bool) (excludedCases : Option (List DivCase)) :
    evaluate_property_isr sosExpr summationIndices omegas gammaVal finalState
        permPairs symmetric excludedCases = .error .typeError ∧
    evaluate_property_sos sosExpr summationIndices omegas gammaVal finalState
        permPairs symmetric excludedCases = .error .typeError ∧
    evaluate_property_sos_fast sosExpr summationIndices omegas gammaVal finalState
        permPairs excludedCases = .error .typeError :=
  ⟨rfl, rfl, rfl⟩

/-! ## SumOverStates construction: component/order inference (C2) and
summation-index validation (C8) -/

theorem collectOpsComps_eq_pure (fs : List Factor) :
    ∀ ops comps, (∀ f ∈ fs, isDipMom f = false) →
      collectOpsComps ops comps fs = .ok (collectOpsCompsPure ops comps fs) := by
  induction fs with
  | nil => intro ops comps _; rfl
  | cons f rest ih =>
    intro ops comps h
    have hrest : ∀ g ∈ rest, isDipMom g = false :=
      fun g hg => h g (List.mem_cons_of_mem _ hg)
    cases f with
    | dipOp c t =>
      by_cases hmem : (c, t) ∈ ops
      · simp only [collectOpsComps, collectOpsCompsPure, if_pos hmem]
        exact ih _ _ hrest
      · simp only [collectOpsComps, collectOpsCompsPure, if_neg hmem]
        exact ih _ _ hrest
    | dipMom c a b t =>
      have := h _ (List.mem_cons_self _ _)
      simp [isDipMom] at this
    | bra l => exact ih _ _ hrest
    | ket l => exact ih _ _ hrest
    | powFac b => exact ih _ _ hrest
    | leviCivita => exact ih _ _ hrest
    | num q => exact ih _ _ hrest

theorem collectMulComps_eq_pure (fs : List Factor) :
    ∀ comps, (∀ f ∈ fs, isDipMom f = false) →
      collectMulComps comps fs = .ok (collectMulCompsPure comps fs) := by
  induction fs with
  | nil => intro comps _; rfl
  | cons f rest ih =>
    intro comps h
    have hrest : ∀ g ∈ rest, isDipMom g = false :=
      fun g hg => h g (List.mem_cons_of_mem _ hg)
    cases f with
    | dipOp c t => exact ih _ hrest
    | dipMom c a b t =>
      have := h _ (List.mem_cons_self _ _)
      simp [isDipMom] at this
    | bra l => exact ih _ hrest
    | ket l => exact ih _ hrest
    | powFac b => exact ih _ hrest
    | leviCivita => exact ih _ hrest
    | num q => exact ih _ hrest

theorem collectStage_eq (expr : SosExpr) (hnd : noDipoleMoment expr) :
    collectStage expr = .ok (operatorsOf expr, componentsOf expr) := by
  cases expr with
  | add terms =>
    have h : ∀ f ∈ terms.flatten, isDipMom f = false := hnd
    simp only [collectStage, operatorsOf, componentsOf]
    rw [collectOpsComps_eq_pure terms.flatten [] [] h]
  | mul fs =>
    have h : ∀ f ∈ fs, isDipMom f = false := hnd
    simp only [collectStage, operatorsOf, componentsOf]
    rw [collectMulComps_eq_pure fs [] h]
    rfl

theorem indexStage_ok_iff (expr : SosExpr) (idx : List String) :
    indexStage expr idx = .ok () ↔ indicesOk expr idx := by
  cases expr with
  | add terms =>
    simp only [indexStage, checkIndicesAdd]
    by_cases hc : (idx.all fun i => terms.all fun t =>
        decide (Factor.bra i ∈ t ∧ Factor.ket i ∈ t)) = true
    · rw [if_pos hc]
      simp only [List.all_eq_true, decide_eq_true_eq] at hc
      exact ⟨fun _ => hc, fun _ => rfl⟩
    · rw [if_neg hc]
      constructor
      · intro h; cases h
      · intro h
        exact absurd (by simpa [List.all_eq_true] using h) hc
  | mul fs =>
    simp only [indexStage, checkIndicesMul]
    by_cases hc : (idx.all fun i =>
        decide (Factor.bra i ∈ fs ∧ Factor.ket i ∈ fs)) = true
    · rw [if_pos hc]
      simp only [List.all_eq_true, decide_eq_true_eq] at hc
      exact ⟨fun _ => hc, fun _ => rfl⟩
    · rw [if_neg hc]
      constructor
      · intro h; cases h
      · intro h
        exact absurd (by simpa [List.all_eq_true] using h) hc

theorem indexStage_cases (expr : SosExpr) (idx : List String) :
    indexStage expr idx = .ok () ∨ indexStage expr idx = .error .indexValueError := by
  cases expr with
  | add terms =>
    simp only [indexStage, checkIndicesAdd]
    by_cases hc : (idx.all fun i => terms.all fun t =>
        decide (Factor.bra i ∈ t ∧ Factor.ket i ∈ t)) = true
    · rw [if_pos hc]; exact Or.inl rfl
    · rw [if_neg hc]; exact Or.inr rfl
  | mul fs =>
    simp only [indexStage, checkIndicesMul]
    by_cases hc : (idx.all fun i =>
        decide (Factor.bra i ∈ fs ∧ Factor.ket i ∈ fs)) = true
    · rw [if_pos hc]; exact Or.inl rfl
    · rw [if_neg hc]; exact Or.inr rfl

theorem indexStage_err_iff (expr : SosExpr) (idx : List String) :
    indexStage expr idx = .error .indexValueError ↔ ¬ indicesOk expr idx := by
  constructor
  · intro h hidx
    have := (indexStage_ok_iff expr idx).mpr hidx
    rw [this] at h
    cases h
  · intro h
    rcases indexStage_cases expr idx with hcase | hcase
    · exact absurd ((indexStage_ok_iff expr idx).mp hcase) h
    · exact hcase

theorem build_sos_error_eq (fs : List Factor) (pairs : List PermPair) (e : ConstrErr)
    (h : build_sos_via_permutation fs pairs = .error e) : e = .orderingValueError := by
  unfold build_sos_via_permutation at h
  by_cases hc : (((term_operators fs).zip pairs).all
      fun pr => decide (pr.1 = pr.2.1)) = true
  · rw [if_pos hc] at h; cases h
  · rw [if_neg hc] at h
    exact (Except.error.inj h).symm

theorem permExpand_error_mem (expr : SosExpr) (pp : Option (List PermPair))
    (e : ConstrErr) (h : permExpand expr pp = .error e) :
    e = .orderingValueError ∨ e = .permAssertionError := by
  cases pp with
  | none => simp only [permExpand] at h; cases h
  | some pairs =>
    simp only [permExpand] at h
    by_cases hemp : pairs.isEmpty
    · rw [if_pos hemp] at h; cases h
    · rw [if_neg hemp] at h
      cases expr with
      | mul fs =>
        have h' : Except.map exprOfTerms (build_sos_via_permutation fs pairs) =
            Except.error e := h
        cases hb : build_sos_via_permutation fs pairs with
        | error e2 =>
          rw [hb] at h'
          have h2 : e2 = e := by simpa [Except.map] using h'
          exact Or.inl (by rw [← h2]; exact build_sos_error_eq fs pairs e2 hb)
        | ok ts =>
          rw [hb] at h'
          simp [Except.map] at h'
      | add ts =>
        have h' : (Except.error ConstrErr.permAssertionError : Except ConstrErr SosExpr) =
            Except.error e := h
        exact Or.inr (Except.error.inj h').symm

theorem init_eq_after_collect (expr : SosExpr) (idx : List String)
    (pp : Option (List PermPair)) (hnd : noDipoleMoment expr) :
    SumOverStates.init expr idx pp =
      (indexStage expr idx >>= fun _ =>
        if componentSort (componentsOf expr) =
            ABC.take (componentSort (componentsOf expr)).length then
          permExpand expr pp >>= fun fe =>
            .ok ⟨fe, idx, operatorsOf expr, componentSort (componentsOf expr),
              (componentSort (componentsOf expr)).length⟩
        else .error .componentValueError) := by
  unfold SumOverStates.init
  rw [collectStage_eq expr hnd]
  rfl

theorem ABC_nodup : ABC.Nodup := by decide

theorem componentSort_length (cs : List Char) : (componentSort cs).length = cs.length :=
  (List.perm_insertionSort _ cs).length_eq

theorem componentSort_perm (cs : List Char) : List.Perm (componentSort cs) cs :=
  List.perm_insertionSort _ cs

theorem sort_canonical_card (cs : List Char)
    (h : componentSort cs = ABC.take (componentSort cs).length) :
    cs.toFinset.card = cs.length := by
  have hlen := componentSort_length cs
  rw [hlen] at h
  have hfin : cs.toFinset = (ABC.take cs.length).toFinset := by
    rw [← List.toFinset_eq_of_perm _ _ (componentSort_perm cs), h]
  have htlen : (ABC.take cs.length).length = cs.length := by
    rw [← h, hlen]
  rw [hfin, List.toFinset_card_of_nodup (ABC_nodup.sublist (List.take_sublist _ _)),
    htlen]

theorem sort_canonical_iff (cs : List Char) :
    componentSort cs = ABC.take (componentSort cs).length ↔
      componentSort cs = ABC.take cs.toFinset.card := by
  constructor
  · intro h
    have hcard := sort_canonical_card cs h
    rw [hcard, ← componentSort_length cs]
    exact h
  · intro h
    have hcle : cs.toFinset.card ≤ cs.length := List.toFinset_card_le cs
    have hlen2 : (ABC.take cs.toFinset.card).length = cs.length := by
      rw [← h, componentSort_length]
    rw [List.length_take] at hlen2
    have hminle : min cs.toFinset.card ABC.length ≤ cs.toFinset.card :=
      Nat.min_le_left _ _
    have hcard : cs.toFinset.card = cs.length := Nat.le_antisymm hcle (by omega)
    rw [componentSort_length, ← hcard]
    exact h

/-- C2: for every `SumOverStates` construction reaching the component
inference (no `DipoleMoment` factor, summation indices valid), the
construction raises the canonical-prefix structure error exactly when the
sorted collected component list differs from the canonical alphabet
prefix whose length is the number of distinct Cartesian component labels;
on success the inferred tensor order equals that number of distinct
labels and the stored components are the canonical prefix `ABC[:order]`
(so components `A, B` give order 2 and `A, B, C` give order 3). -/
theorem sum_over_states_order_inference (expr : SosExpr) (idx : List String)
    (pp : Option (List PermPair)) (hnd : noDipoleMoment expr)
    (hidx : indicesOk expr idx) :
    (SumOverStates.init expr idx pp = .error .componentValueError ↔
      componentSort (componentsOf expr) ≠
        ABC.take (componentsOf expr).toFinset.card) ∧
    (∀ sos, SumOverStates.init expr idx pp = .ok sos →
      sos.order = (componentsOf expr).toFinset.card ∧
      sos.components = ABC.take sos.order) := by
  rw [init_eq_after_collect expr idx pp hnd, (indexStage_ok_iff expr idx).mpr hidx]
  simp only [exceptBind_ok]
  by_cases hc : componentSort (componentsOf expr) =
      ABC.take (componentSort (componentsOf expr)).length
  · rw [if_pos hc]
    constructor
    · constructor
      · intro h
        exfalso
        cases hpe : permExpand expr pp with
        | error e =>
          rw [hpe, exceptBind_err] at h
          have he := Except.error.inj h
          rcases permExpand_error_mem expr pp e hpe with h1 | h1 <;> rw [h1] at he <;>
            cases he
        | ok fe =>
          rw [hpe, exceptBind_ok] at h
          cases h
      · intro hne
        exact absurd ((sort_canonical_iff (componentsOf expr)).mp hc) hne
    · intro sos hok
      cases hpe : permExpand expr pp with
      | error e => rw [hpe, exceptBind_err] at hok; cases hok
      | ok fe =>
        rw [hpe, exceptBind_ok] at hok
        have hsos := Except.ok.inj hok
        rw [← hsos]
        constructor
        · show (componentSort (componentsOf expr)).length = (componentsOf expr).toFinset.card
          rw [componentSort_length, sort_canonical_card (componentsOf expr) hc]
        · show componentSort (componentsOf expr) =
            ABC.take (componentSort (componentsOf expr)).length
          exact hc
  · rw [if_neg hc]
    constructor
    · constructor
      · intro _ heq
        exact hc ((sort_canonical_iff (componentsOf expr)).mpr heq)
      · intro _; rfl
    · intro sos hok; cases hok

/-- Witness for C2 at a concrete two-operator expression with components
`A, B`: construction succeeds with inferred order 2 and canonical
components. -/
theorem sum_over_states_order_inference_witness :
    noDipoleMoment (SosExpr.mul alphaTerm) ∧
    indicesOk (SosExpr.mul alphaTerm) ["n"] ∧
    (2 : ℕ) = (componentsOf (SosExpr.mul alphaTerm)).toFinset.card ∧
    (['A', 'B'] : List Char) = ABC.take 2 := by
  have hok : SumOverStates.init (SosExpr.mul alphaTerm) ["n"] none =
      .ok ⟨SosExpr.mul alphaTerm, ["n"], [(['A'], "electric"), (['B'], "electric")],
        ['A', 'B'], 2⟩ := by rfl
  have h := (sum_over_states_order_inference (SosExpr.mul alphaTerm) ["n"] none
    (by decide) (by decide)).2 _ hok
  exact ⟨by decide, by decide, h.1, h.2⟩

/-- C8: for every `SumOverStates` construction on an expression free of
`DipoleMoment` factors, construction raises the `ValueError` "Given
indices of summation are not correct." exactly when some summation index
fails to occur as both a `Bra` and a `Ket` factor in every additive term
(in the whole product, for a single-product expression); when every index
so occurs, construction proceeds past this validation. -/
theorem sum_over_states_index_validation (expr : SosExpr) (idx : List String)
    (pp : Option (List PermPair)) (hnd : noDipoleMoment expr) :
    SumOverStates.init expr idx pp = .error .indexValueError ↔
      ¬ indicesOk expr idx := by
  rw [init_eq_after_collect expr idx pp hnd]
  rcases indexStage_cases expr idx with hcase | hcase
  · rw [hcase]
    simp only [exceptBind_ok]
    have hidx := (indexStage_ok_iff expr idx).mp hcase
    constructor
    · intro h
      exfalso
      by_cases hc : componentSort (componentsOf expr) =
          ABC.take (componentSort (componentsOf expr)).length
      · rw [if_pos hc] at h
        cases hpe : permExpand expr pp with
        | error e =>
          rw [hpe, exceptBind_err] at h
          have he := Except.error.inj h
          rcases permExpand_error_mem expr pp e hpe with h1 | h1 <;> rw [h1] at he <;>
            cases he
        | ok fe =>
          rw [hpe, exceptBind_ok] at h
          cases h
      · rw [if_neg hc] at h
        have he := Except.error.inj h
        cases he
    · intro h; exact absurd hidx h
  · rw [hcase, exceptBind_err]
    have hn := (indexStage_err_iff expr idx).mp hcase
    exact ⟨fun _ => hn, fun _ => rfl⟩

/-- Witness for C8 at a concrete input: summation index `k` does not
occur in the term, so construction raises the index error. -/
theorem sum_over_states_index_validation_witness :
    noDipoleMoment (SosExpr.mul alphaTerm) ∧
    ¬ indicesOk (SosExpr.mul alphaTerm) ["k"] ∧
    SumOverStates.init (SosExpr.mul alphaTerm) ["k"] none = .error .indexValueError :=
  ⟨by decide, by decide,
    (sum_over_states_index_validation (SosExpr.mul alphaTerm) ["k"] none
      (by decide)).mpr (by decide)⟩

/-! ## Result-tensor shape and dtype (C9) -/

theorem writeCell_shape (T : ResTensor) (c : List (Fin 3)) (v : CQ) :
    (writeCell T c v).shape = T.shape := rfl

theorem writeCell_dtype (T : ResTensor) (c : List (Fin 3)) (v : CQ) :
    (writeCell T c v).dtype = T.dtype := rfl

theorem copyFold_shape (c : List (Fin 3)) (l : List (List (Fin 3))) :
    ∀ r : ResTensor,
      (l.foldl (fun r' p => writeCell r' p (r'.data c)) r).shape = r.shape := by
  induction l with
  | nil => intro r; rfl
  | cons p rest ih => intro r; exact ih (writeCell r p (r.data c))

theorem copyFold_dtype (c : List (Fin 3)) (l : List (List (Fin 3))) :
    ∀ r : ResTensor,
      (l.foldl (fun r' p => writeCell r' p (r'.data c)) r).dtype = r.dtype := by
  induction l with
  | nil => intro r; rfl
  | cons p rest ih => intro r; exact ih (writeCell r p (r.data c))

theorem processComponentIsr_ok_shape_dtype (sym : Bool)
    (tv : List (Fin 3) → List SymVal) (res : ResTensor) (c : List (Fin 3))
    (T1 : ResTensor) (h : processComponentIsr sym tv res c = .ok T1) :
    T1.shape = res.shape ∧ T1.dtype = res.dtype := by
  unfold processComponentIsr at h
  cases hacc : accumulate_terms (res.data c) (tv c) with
  | error e => rw [hacc, exceptBind_err] at h; cases h
  | ok v =>
    rw [hacc, exceptBind_ok] at h
    cases sym with
    | false =>
      have hT1 : writeCell res c v = T1 := Except.ok.inj h
      rw [← hT1]
      exact ⟨rfl, rfl⟩
    | true =>
      have hT1 : (c.permutations.foldl (fun r p => writeCell r p (r.data c))
          (writeCell res c v)) = T1 := Except.ok.inj h
      rw [← hT1]
      exact ⟨copyFold_shape c c.permutations (writeCell res c v),
        copyFold_dtype c c.permutations (writeCell res c v)⟩

theorem isr_assembly_fold_shape_dtype (sym : Bool)
    (tv : List (Fin 3) → List SymVal) :
    ∀ (cs : List (List (Fin 3))) (T R : ResTensor),
      cs.foldlM (processComponentIsr sym tv) T = .ok R →
      R.shape = T.shape ∧ R.dtype = T.dtype := by
  intro cs
  induction cs with
  | nil =>
    intro T R h
    have hTR : T = R := Except.ok.inj h
    rw [hTR]
    exact ⟨rfl, rfl⟩
  | cons c rest ih =>
    intro T R h
    rw [List.foldlM_cons] at h
    cases hp : processComponentIsr sym tv T c with
    | error e => rw [hp, exceptBind_err] at h; cases h
    | ok T1 =>
      rw [hp, exceptBind_ok] at h
      obtain ⟨hs, hd⟩ := processComponentIsr_ok_shape_dtype sym tv T c T1 hp
      obtain ⟨hs2, hd2⟩ := ih T1 R h
      exact ⟨hs2.trans hs, hd2.trans hd⟩

theorem resTensInit_shape (order : ℕ) (γ : ℚ) :
    (resTensInit order γ).shape = List.replicate order 3 := rfl

theorem resTensInit_dtype_iff (order : ℕ) (γ : ℚ) :
    (resTensInit order γ).dtype = Dtype.cplx ↔ γ ≠ 0 := by
  unfold resTensInit
  by_cases hγ : γ ≠ 0
  · rw [if_pos hγ]
    exact ⟨fun _ => hγ, fun _ => rfl⟩
  · rw [if_neg hγ]
    constructor
    · intro h; cases h
    · intro h; exact absurd h hγ

theorem sos_fast_fold_shape_dtype (contribs : List (List (Fin 3) → CQ)) :
    ∀ T : ResTensor,
      (contribs.foldl tensor_add_contrib T).shape = T.shape ∧
      (contribs.foldl tensor_add_contrib T).dtype = T.dtype := by
  induction contribs with
  | nil => intro T; exact ⟨rfl, rfl⟩
  | cons g rest ih => intro T; exact ih (tensor_add_contrib T g)

/-- C9: every tensor returned by the assembly stage of
`evaluate_property_isr` (on a successful evaluation) and of
`evaluate_property_sos_fast` is a dense array of shape `(3,)*order`,
with real (`float`) dtype exactly when `gamma_val = 0` and complex dtype
exactly when `gamma_val ≠ 0`. -/
theorem result_tensor_shape_and_dtype (symmetric : Bool) (order : ℕ) (γ : ℚ)
    (tv : List (Fin 3) → List SymVal) (contribs : List (List (Fin 3) → CQ))
    (R : ResTensor) :
    (evaluate_property_isr_assembly symmetric order γ tv = .ok R →
      R.shape = List.replicate order 3 ∧ (R.dtype = Dtype.cplx ↔ γ ≠ 0)) ∧
    ((evaluate_property_sos_fast_assembly order γ contribs).shape =
        List.replicate order 3 ∧
      ((evaluate_property_sos_fast_assembly order γ contribs).dtype = Dtype.cplx ↔
        γ ≠ 0)) := by
  constructor
  · intro h
    obtain ⟨hs, hd⟩ := isr_assembly_fold_shape_dtype symmetric tv
      (components_list symmetric order) (resTensInit order γ) R h
    rw [hs, hd]
    exact ⟨resTensInit_shape order γ, resTensInit_dtype_iff order γ⟩
  · obtain ⟨hs, hd⟩ := sos_fast_fold_shape_dtype contribs (resTensInit order γ)
    rw [evaluate_property_sos_fast_assembly, hs, hd]
    exact ⟨resTensInit_shape order γ, resTensInit_dtype_iff order γ⟩

/-- Witness for C9 at a concrete successful assembly: order 1, zero
damping, one finite term value. -/
theorem result_tensor_shape_and_dtype_witness :
    exceptShape (evaluate_property_isr_assembly false 1 0
        (fun _ => [SymVal.val ⟨1, 0⟩])) = List.replicate 1 3 ∧
    (exceptDtype (evaluate_property_isr_assembly false 1 0
        (fun _ => [SymVal.val ⟨1, 0⟩])) = Dtype.cplx ↔ (0 : ℚ) ≠ 0) := by
  obtain ⟨R, hR⟩ : ∃ R, evaluate_property_isr_assembly false 1 0
      (fun _ => [SymVal.val ⟨1, 0⟩]) = .ok R := ⟨_, rfl⟩
  have h := (result_tensor_shape_and_dtype false 1 0 (fun _ => [SymVal.val ⟨1, 0⟩])
    [] R).1 hR
  rw [hR]
  exact ⟨h.1, h.2⟩

/-! ## Symmetric tensor fill (C10) -/

theorem mem_fin3range (a : Fin 3) : a ∈ fin3range := by
  fin_cases a <;> decide

theorem mem_cwrFrom (n : ℕ) :
    ∀ (lo : Fin 3) (c : List (Fin 3)),
      c ∈ cwrFrom lo n ↔
        c.length = n ∧ c.Sorted (fun a b => a ≤ b) ∧ ∀ x ∈ c, lo ≤ x := by
  induction n with
  | zero =>
    intro lo c
    constructor
    · intro h
      have hc : c = [] := by simpa [cwrFrom] using h
      subst hc
      exact ⟨rfl, List.sorted_nil, fun x hx => absurd hx (List.not_mem_nil x)⟩
    · intro ⟨hlen, _, _⟩
      have hc : c = [] := List.length_eq_zero.mp hlen
      subst hc
      simp [cwrFrom]
  | succ n ih =>
    intro lo c
    constructor
    · intro h
      simp only [cwrFrom, List.mem_flatMap, List.mem_map, List.mem_filter] at h
      obtain ⟨a, ⟨_, ha⟩, c', hc', hcons⟩ := h
      have hlo : lo ≤ a := by simpa using ha
      obtain ⟨hlen, hsort, hbound⟩ := (ih a c').mp hc'
      subst hcons
      refine ⟨by simp [hlen], ?_, ?_⟩
      · exact List.sorted_cons.mpr ⟨hbound, hsort⟩
      · intro x hx
        rcases List.mem_cons.mp hx with h1 | h1
        · exact h1 ▸ hlo
        · exact le_trans hlo (hbound x h1)
    · intro ⟨hlen, hsort, hbound⟩
      cases c with
      | nil => cases hlen
      | cons a c' =>
        obtain ⟨hb, hs⟩ := List.sorted_cons.mp hsort
        simp only [cwrFrom, List.mem_flatMap, List.mem_map, List.mem_filter]
        refine ⟨a, ⟨mem_fin3range a, by
          simpa using hbound a (List.mem_cons_self _ _)⟩, c', ?_, rfl⟩
        exact (ih a c').mpr ⟨by simpa using hlen, hs, hb⟩

theorem cwrFrom_nodup (n : ℕ) : ∀ lo : Fin 3, (cwrFrom lo n).Nodup := by
  induction n with
  | zero => intro lo; simp [cwrFrom]
  | succ n ih =>
    intro lo
    rw [cwrFrom]
    apply List.nodup_flatMap.mpr
    constructor
    · intro a _
      exact ((ih a).map List.cons_injective)
    · have hnd : (fin3range.filter (fun a => lo ≤ a)).Nodup :=
        List.Nodup.filter _ (by decide)
      apply List.Pairwise.imp ?_ hnd
      intro a b hab
      intro x hxa hxb
      obtain ⟨ca, _, hca⟩ := List.mem_map.mp hxa
      obtain ⟨cb, _, hcb⟩ := List.mem_map.mp hxb
      apply hab
      have : a :: ca = b :: cb := by rw [hca, hcb]
      exact (List.cons.inj this).1

theorem mem_cwr3_iff (order : ℕ) (c : List (Fin 3)) :
    c ∈ cwr3 order ↔ c.length = order ∧ c.Sorted (fun a b => a ≤ b) := by
  rw [cwr3, mem_cwrFrom]
  constructor
  · intro ⟨h1, h2, _⟩; exact ⟨h1, h2⟩
  · intro ⟨h1, h2⟩; exact ⟨h1, h2, fun x _ => Fin.zero_le x⟩

theorem sort_eq_of_perm (t c : List (Fin 3)) (h : List.Perm t c) :
    List.insertionSort (fun a b => a ≤ b) t =
      List.insertionSort (fun a b => a ≤ b) c :=
  List.eq_of_perm_of_sorted
    ((List.perm_insertionSort _ t).trans (h.trans (List.perm_insertionSort _ c).symm))
    (List.sorted_insertionSort _ t) (List.sorted_insertionSort _ c)

theorem sort_self_of_sorted (c : List (Fin 3)) (h : c.Sorted (fun a b => a ≤ b)) :
    List.insertionSort (fun a b => a ≤ b) c = c :=
  h.insertionSort_eq

theorem copyFold_data (c : List (Fin 3)) (l : List (List (Fin 3))) :
    ∀ (r : ResTensor) (t : List (Fin 3)),
      (l.foldl (fun r' p => writeCell r' p (r'.data c)) r).data t =
        if t ∈ l then r.data c else r.data t := by
  induction l with
  | nil =>
    intro r t
    rw [List.foldl_nil, if_neg (List.not_mem_nil t)]
  | cons p rest ih =>
    intro r t
    rw [List.foldl_cons, ih]
    have hc : (writeCell r p (r.data c)).data c = r.data c := by
      simp only [writeCell]
      split <;> rfl
    by_cases ht : t ∈ rest
    · rw [if_pos ht, if_pos (List.mem_cons_of_mem _ ht), hc]
    · rw [if_neg ht]
      by_cases htp : t = p
      · rw [if_pos (htp ▸ List.mem_cons_self p rest)]
        simp only [writeCell, if_pos htp]
      · rw [if_neg (fun hmem => by
          rcases List.mem_cons.mp hmem with h1 | h1
          · exact htp h1
          · exact ht h1)]
        simp only [writeCell, if_neg htp]

theorem accumulate_ok_value (cell : CQ) (vals : List SymVal) (v : CQ)
    (h : accumulate_terms cell vals = .ok v) :
    SymVal.zoo ∉ vals ∧ v = cell + sumVals vals := by
  have hnz : SymVal.zoo ∉ vals := by
    intro hz
    rw [accumulate_terms_of_mem_zoo vals cell hz] at h
    cases h
  rw [accumulate_terms_of_not_mem_zoo vals cell hnz] at h
  exact ⟨hnz, (Except.ok.inj h).symm⟩

theorem processComponentIsr_true_ok (tv : List (Fin 3) → List SymVal)
    (res : ResTensor) (c : List (Fin 3)) (T1 : ResTensor)
    (h : processComponentIsr true tv res c = .ok T1) :
    SymVal.zoo ∉ tv c ∧
    ∀ t, T1.data t =
      if List.Perm t c then res.data c + sumVals (tv c) else res.data t := by
  unfold processComponentIsr at h
  cases hacc : accumulate_terms (res.data c) (tv c) with
  | error e => rw [hacc, exceptBind_err] at h; cases h
  | ok v =>
    obtain ⟨hnz, hv⟩ := accumulate_ok_value (res.data c) (tv c) v hacc
    rw [hacc, exceptBind_ok] at h
    have hT1 : (c.permutations.foldl (fun r p => writeCell r p (r.data c))
        (writeCell res c v)) = T1 := Except.ok.inj h
    refine ⟨hnz, fun t => ?_⟩
    rw [← hT1, copyFold_data]
    have hcc : (writeCell res c v).data c = v := by
      simp [writeCell]
    by_cases hmem : t ∈ c.permutations
    · rw [if_pos hmem, hcc, if_pos (List.mem_permutations.mp hmem), hv]
    · have hne : ¬ List.Perm t c := fun hp => hmem (List.mem_permutations.mpr hp)
      rw [if_neg hmem, if_neg hne]
      have htc : t ≠ c := fun he => hne (he ▸ List.Perm.refl t)
      simp only [writeCell, if_neg htc]

theorem foldlM_process_inv (tv : List (Fin 3) → List SymVal) :
    ∀ (cs : List (List (Fin 3))) (T R : ResTensor),
      cs.foldlM (processComponentIsr true tv) T = .ok R →
      cs.Nodup → (∀ c ∈ cs, c.Sorted (fun a b => a ≤ b)) →
      (∀ t, List.insertionSort (fun a b => a ≤ b) t ∈ cs → T.data t = 0) →
      ∀ t, R.data t =
        if List.insertionSort (fun a b => a ≤ b) t ∈ cs
        then sumVals (tv (List.insertionSort (fun a b => a ≤ b) t))
        else T.data t := by
  intro cs
  induction cs with
  | nil =>
    intro T R h _ _ _ t
    have hTR : T = R := Except.ok.inj h
    rw [← hTR, if_neg (List.not_mem_nil _)]
  | cons c rest ih =>
    intro T R h hnd hsorted hzero t
    rw [List.foldlM_cons] at h
    cases hp : processComponentIsr true tv T c with
    | error e => rw [hp, exceptBind_err] at h; cases h
    | ok T1 =>
      rw [hp, exceptBind_ok] at h
      obtain ⟨_, hdata⟩ := processComponentIsr_true_ok tv T c T1 hp
      have hsort_c : c.Sorted (fun a b => a ≤ b) := hsorted c (List.mem_cons_self _ _)
      have hsc : List.insertionSort (fun a b => a ≤ b) c = c :=
        sort_self_of_sorted c hsort_c
      have hnotmem : c ∉ rest := (List.nodup_cons.mp hnd).1
      have hT1zero : ∀ t', List.insertionSort (fun a b => a ≤ b) t' ∈ rest →
          T1.data t' = 0 := by
        intro t' hmem
        have hne : ¬ List.Perm t' c := by
          intro hperm
          have hst := sort_eq_of_perm t' c hperm
          rw [hst, hsc] at hmem
          exact hnotmem hmem
        rw [hdata t', if_neg hne]
        exact hzero t' (List.mem_cons_of_mem _ hmem)
      have hrest_inv := ih T1 R h (List.nodup_cons.mp hnd).2
        (fun c' hc' => hsorted c' (List.mem_cons_of_mem _ hc')) hT1zero
      by_cases hmem : List.insertionSort (fun a b => a ≤ b) t ∈ rest
      · rw [hrest_inv t, if_pos hmem, if_pos (List.mem_cons_of_mem _ hmem)]
      · rw [hrest_inv t, if_neg hmem]
        by_cases hc : List.insertionSort (fun a b => a ≤ b) t = c
        · rw [if_pos (show List.insertionSort (fun a b => a ≤ b) t ∈ c :: rest by
            rw [hc]; exact List.mem_cons_self c rest)]
          have hperm : List.Perm t c := by
            have h1 : List.Perm t (List.insertionSort (fun a b => a ≤ b) t) :=
              (List.perm_insertionSort _ t).symm
            rw [hc] at h1
            exact h1
          rw [hdata t, if_pos hperm]
          have hTc : T.data c = 0 :=
            hzero c (by rw [hsc]; exact List.mem_cons_self c rest)
          rw [hTc, CQ.zero_add, hc]
        · rw [if_neg (fun hmm => by
            rcases List.mem_cons.mp hmm with h1 | h1
            · exact hc h1
            · exact hmem h1)]
          have hne : ¬ List.Perm t c := by
            intro hperm
            exact hc (by rw [sort_eq_of_perm t c hperm, hsc])
          rw [hdata t, if_neg hne]

theorem cwr3_nodup (order : ℕ) : (cwr3 order).Nodup := cwrFrom_nodup order 0

/-- C10: when the tensor-assembly stage of `evaluate_property_isr` runs
with `symmetric=True` and succeeds, only non-decreasing component tuples
are computed and each computed cell's value is copied to all index
permutations of its tuple, so for every Cartesian index tuple `c` and
every permutation `p` of `c` the returned tensor satisfies
`result[p] = result[c]` exactly. -/
theorem symmetric_fill_permutation_invariant (order : ℕ) (γ : ℚ)
    (tv : List (Fin 3) → List SymVal) (R : ResTensor) (c p : List (Fin 3))
    (hok : evaluate_property_isr_assembly true order γ tv = .ok R)
    (hperm : List.Perm p c) : R.data p = R.data c := by
  unfold evaluate_property_isr_assembly at hok
  have hcomp : components_list true order = cwr3 order := rfl
  rw [hcomp] at hok
  have hinv := foldlM_process_inv tv (cwr3 order) (resTensInit order γ) R hok
    (cwr3_nodup order) (fun c' hc' => ((mem_cwr3_iff order c').mp hc').2)
    (fun t _ => rfl)
  rw [hinv p, hinv c, sort_eq_of_perm p c hperm]
  rfl

/-- Witness for C10 at a concrete successful symmetric assembly of order
2: the cells at `[1, 0]` and `[0, 1]` coincide. -/
theorem symmetric_fill_permutation_invariant_witness :
    List.Perm [(1 : Fin 3), 0] [0, 1] ∧
    exceptData (evaluate_property_isr_assembly true 2 0
        (fun _ => [SymVal.val ⟨1, 0⟩])) [1, 0] =
      exceptData (evaluate_property_isr_assembly true 2 0
        (fun _ => [SymVal.val ⟨1, 0⟩])) [0, 1] := by
  obtain ⟨R, hR⟩ : ∃ R, evaluate_property_isr_assembly true 2 0
      (fun _ => [SymVal.val ⟨1, 0⟩]) = .ok R := ⟨_, rfl⟩
  refine ⟨by decide, ?_⟩
  have h := symmetric_fill_permutation_invariant 2 0 (fun _ => [SymVal.val ⟨1, 0⟩])
    R [0, 1] [1, 0] hR (by decide)
  rw [hR]
  exact h

end Responsefun
